import Mathlib

/-!
Verification development for the PeakRDL-pdf exporter
(`src/peakrdl_pdf/exporter.py`, with the legacy near-duplicate
`src/peakrdl/pdf/exporter.py`).  Python strings are modelled as `List Char`,
Python integers as `Nat` (all the values involved are non-negative), and a
Python call that raises is modelled as `Except`.
-/

namespace PeakRdlPdf

/-! ## Access-mnemonic resolver (`PDFExporter.get_field_access`)

The `sw`, `onread` and `onwrite` property values come from
`systemrdl.rdltypes`; an absent on-read/on-write effect is Python `None`,
modelled as `Option.none`. -/

inductive AccessType
  | rw | r | w | rw1 | w1 | na
deriving DecidableEq, Fintype

inductive OnReadType
  | rclr | rset | ruser
deriving DecidableEq, Fintype

inductive OnWriteType
  | woset | woclr | wot | wzs | wzc | wzt | wclr | wset | wuser
deriving DecidableEq, Fintype

/-- `PDFExporter.get_field_access` (exporter.py lines 375-448, identical in the
legacy file lines 289-362): the Python `if`/`elif` chain translated clause for
clause, in source order. -/
def get_field_access (sw : AccessType) (onread : Option OnReadType)
    (onwrite : Option OnWriteType) : String :=
  if sw = AccessType.rw then
    if onwrite = none ∧ onread = none then "RW"
    else if onread = some .rclr ∧ onwrite = some .woset then "W1SRC"
    else if onread = some .rclr ∧ onwrite = some .wzs then "W0SRC"
    else if onread = some .rclr ∧ onwrite = some .wset then "WSRC"
    else if onread = some .rset ∧ onwrite = some .woclr then "W1CRS"
    else if onread = some .rset ∧ onwrite = some .wzc then "W0CRS"
    else if onread = some .rset ∧ onwrite = some .wclr then "WCRS"
    else if onwrite = some .woclr then "RW1C"
    else if onwrite = some .woset then "RW1S"
    else if onwrite = some .wot then "RW1T"
    else if onwrite = some .wzc then "RW0C"
    else if onwrite = some .wzs then "RW0S"
    else if onwrite = some .wzt then "RW0T"
    else if onwrite = some .wclr then "RWC"
    else if onwrite = some .wset then "RWS"
    else if onread = some .rclr then "WRC"
    else if onread = some .rset then "WRS"
    else "RW"
  else if sw = AccessType.r then
    if onread = none then "RO"
    else if onread = some .rclr then "RC"
    else if onread = some .rset then "RS"
    else "RO"
  else if sw = AccessType.w then
    if onwrite = none then "WO"
    else if onwrite = some .wclr then "WOC"
    else if onwrite = some .wset then "WOS"
    else "WO"
  else if sw = AccessType.rw1 then "W1"
  else if sw = AccessType.w1 then "WO1"
  else "NOACCESS"

/-- Modelled from the spec: the decision table of spec section 4.2, read row
by row, first match wins; a dash entry matches anything, and the per-mode
fallback rows give RW, RO and WO; rw1 gives W1, w1 gives WO1, anything else
NOACCESS. -/
def resolve_access_spec (sw : AccessType) (onread : Option OnReadType)
    (onwrite : Option OnWriteType) : String :=
  if sw = AccessType.rw ∧ onread = none ∧ onwrite = none then "RW"
  else if sw = AccessType.rw ∧ onread = some .rclr ∧ onwrite = some .woset then "W1SRC"
  else if sw = AccessType.rw ∧ onread = some .rclr ∧ onwrite = some .wzs then "W0SRC"
  else if sw = AccessType.rw ∧ onread = some .rclr ∧ onwrite = some .wset then "WSRC"
  else if sw = AccessType.rw ∧ onread = some .rset ∧ onwrite = some .woclr then "W1CRS"
  else if sw = AccessType.rw ∧ onread = some .rset ∧ onwrite = some .wzc then "W0CRS"
  else if sw = AccessType.rw ∧ onread = some .rset ∧ onwrite = some .wclr then "WCRS"
  else if sw = AccessType.rw ∧ onwrite = some .woclr then "RW1C"
  else if sw = AccessType.rw ∧ onwrite = some .woset then "RW1S"
  else if sw = AccessType.rw ∧ onwrite = some .wot then "RW1T"
  else if sw = AccessType.rw ∧ onwrite = some .wzc then "RW0C"
  else if sw = AccessType.rw ∧ onwrite = some .wzs then "RW0S"
  else if sw = AccessType.rw ∧ onwrite = some .wzt then "RW0T"
  else if sw = AccessType.rw ∧ onwrite = some .wclr then "RWC"
  else if sw = AccessType.rw ∧ onwrite = some .wset then "RWS"
  else if sw = AccessType.rw ∧ onread = some .rclr then "WRC"
  else if sw = AccessType.rw ∧ onread = some .rset then "WRS"
  else if sw = AccessType.rw then "RW"
  else if sw = AccessType.r ∧ onread = none then "RO"
  else if sw = AccessType.r ∧ onread = some .rclr then "RC"
  else if sw = AccessType.r ∧ onread = some .rset then "RS"
  else if sw = AccessType.r then "RO"
  else if sw = AccessType.w ∧ onwrite = none then "WO"
  else if sw = AccessType.w ∧ onwrite = some .wclr then "WOC"
  else if sw = AccessType.w ∧ onwrite = some .wset then "WOS"
  else if sw = AccessType.w then "WO"
  else if sw = AccessType.rw1 then "W1"
  else if sw = AccessType.w1 then "WO1"
  else "NOACCESS"

/-! ## Numeric formatter (`PDFExporter.format_number`, exporter.py lines 585-591)

`format_number(self, address, bits)` computes
`no_of_nib = (self.address_width + 3) >> 2`,
`total_width = ((no_of_nib + 3) >> 2) + no_of_nib`, renders `address` with the
Python format string `'{:0<total_width>_x}'`, uppercases it and returns
`bits + "'h" + value`.  Note that the field width is derived from the
exporter's `address_width` state, not from the `bits` argument, and that
`bits + "'h"` is a Python string concatenation: a non-string `bits` raises
`TypeError`. -/

/-- the apostrophe character of the `"'h"` literal -/
def apos : Char := Char.ofNat 39

/-- lowercase hexadecimal digit character, as Python `'{:x}'` renders one
digit (`0`-`9` then `a`-`f`) -/
def hexChar (d : Nat) : Char :=
  if d < 10 then Char.ofNat (48 + d) else Char.ofNat (87 + d)

/-- little-endian base-16 digits of `v`, with explicit fuel so that the
kernel can evaluate it (`fuel ≥ v` makes it total; see `toHexLE_eq_digits`) -/
def toHexLE (fuel v : Nat) : List Nat :=
  match fuel with
  | 0 => []
  | fuel + 1 => if v = 0 then [] else v % 16 :: toHexLE fuel (v / 16)

/-- the hexadecimal digits of `v` most-significant first, as Python
`'{:x}'.format(v)` renders them (a single `'0'` for zero) -/
def hexDigitsBE (v : Nat) : List Char :=
  if v = 0 then ['0'] else ((toHexLE v v).map hexChar).reverse

/-- zero-pad a digit string on the left to `d` characters -/
def padLeft (d : Nat) (l : List Char) : List Char :=
  List.replicate (d - l.length) '0' ++ l

/-- split into chunks of four characters, first chunk first (the last chunk
may be shorter) -/
def chunks4 : List Char → List (List Char)
  | [] => []
  | [a] => [[a]]
  | [a, b] => [[a, b]]
  | [a, b, c] => [[a, b, c]]
  | a :: b :: c :: d :: l => [a, b, c, d] :: chunks4 l

/-- concatenate chunks with a `'_'` between consecutive chunks -/
def joinU : List (List Char) → List Char
  | [] => []
  | [c] => c
  | c :: cs => c ++ '_' :: joinU cs

/-- insert a `'_'` between every two groups of four characters, counting
groups from the right, as Python's `_` format grouping does -/
def group4 (l : List Char) : List Char :=
  (joinU (chunks4 l.reverse)).reverse

/-- the number of digits CPython renders for a zero-padded `_`-grouped field
of width `W` when the value has `n` significant digits: digits are added
until the digits plus the inserted separators fill the field, so the count is
the least `d ≥ n` with `d + (d - 1) / 4 ≥ W`, which is
`max n (W - (W - 1) / 5)` (validated against CPython's output) -/
def pyPadWidth (W n : Nat) : Nat := max n (W - (W - 1) / 5)

/-- Python `('{:0' + str(W) + '_x}').format(v)` for a non-negative `v`:
zero-padded to field width `W` counting the underscore separators inserted
every four hex digits from the right -/
def pyGroupedHex (W v : Nat) : List Char :=
  group4 (padLeft (pyPadWidth W (hexDigitsBE v).length) (hexDigitsBE v))

/-- a dynamically typed Python value, as far as `format_number`'s `bits`
argument needs: an integer or a string -/
inductive PyVal
  | int (n : Nat)
  | str (s : List Char)

/-- the message of the `TypeError` Python raises for `int + str` -/
def typeErrorMsg : List Char :=
  "TypeError: unsupported operand types int and str".toList

/-- exporter.py line 586: `no_of_nib = (self.address_width + 3) >> 2` -/
def no_of_nib (address_width : Nat) : Nat := (address_width + 3) >>> 2

/-- exporter.py line 587: `total_width = ((no_of_nib + 3) >> 2) + no_of_nib` -/
def total_width (address_width : Nat) : Nat :=
  ((no_of_nib address_width + 3) >>> 2) + no_of_nib address_width

/-- `PDFExporter.format_number` (exporter.py lines 585-591), parameterized by
the exporter's `self.address_width` state -/
def format_number (address_width : Nat) (address : Nat) (bits : PyVal) :
    Except (List Char) (List Char) :=
  match bits with
  | .int _ => .error typeErrorMsg
  | .str s =>
      .ok (s ++ apos :: 'h' ::
        (pyGroupedHex (total_width address_width) address).map Char.toUpper)

/-- decimal digit string of `w`, what Python `str(w)` gives for a
non-negative integer -/
def decDigits (w : Nat) : List Char := Nat.toDigits 10 w

/-- `PDFExporter.format_address` (exporter.py lines 582-583): `format_number`
at the configured address width, with `str(self.address_width)` as `bits` -/
def format_address (address_width : Nat) (address : Nat) :
    Except (List Char) (List Char) :=
  format_number address_width address (.str (decDigits address_width))

/-- numeric value of a (possibly uppercase) hexadecimal digit character -/
def hexVal (c : Char) : Nat :=
  if c.toNat ≤ 57 then c.toNat - 48
  else if c.toNat ≤ 70 then c.toNat - 55
  else c.toNat - 87

/-- parse a big-endian hexadecimal digit string -/
def parseHex (l : List Char) : Nat :=
  l.foldl (fun a c => 16 * a + hexVal c) 0

/-- drop the `'_'` group separators -/
def stripUnderscores (l : List Char) : List Char :=
  l.filter (fun c => c ≠ '_')

deriving instance DecidableEq for Except

/-! ## Address-gap reconciler (`PDFExporter.create_regmap_list`,
exporter.py lines 196-254)

A register is modelled by its raw address offset and total size in bytes,
plus its instance name; arrays and the `unroll` user property are out of the
model (the registers modelled are plain non-array registers, for which the
code emits one normal row).  A row keeps the numeric offsets the code
computes before formatting: `Cell.single a` is a row whose Offset cell is one
formatted address, `Cell.range lo hi` one rendered as
`"<lo> through <hi>"` (both in element units, `hi` inclusive); `reserved` is
the flag passed to `create_reg_list_info`. -/

structure Reg where
  raw_address_offset : Nat
  total_size : Nat
  inst_name : List Char
deriving DecidableEq

inductive Cell
  | single (a : Nat)
  | range (lo hi : Nat)
deriving DecidableEq

structure Row where
  offset : Cell
  identifier : List Char
  name : List Char
  reserved : Bool
deriving DecidableEq

/-- the `"-"` placeholder written into reserved rows -/
def dash : List Char := ['-']

/-- exporter.py lines 223-225: `end_addr` of the range branch; `delta` is the
gap in element units and the code's modulus is `reg.total_size << elem_addr_bits`. -/
def end_addr (e : Nat) (rp r : Reg) : Nat :=
  ((rp.raw_address_offset + rp.total_size) >>> e) +
    (((r.raw_address_offset >>> e) - ((rp.raw_address_offset + rp.total_size) >>> e)) -
      ((r.raw_address_offset >>> e) - ((rp.raw_address_offset + rp.total_size) >>> e)) %
        (r.total_size <<< e))

/-- exporter.py lines 209-231: the reserved row(s) emitted before register
`r` when `rp` is the previous register (`reg_id != 0`): the single-space
branch when `rp.raw_address_offset + 2*rp.total_size == r.raw_address_offset`
(checked first), else the range branch when the previous register's end is
below `r`'s offset, else nothing. -/
def gapRows (e : Nat) (rp r : Reg) : List Row :=
  if rp.raw_address_offset + 2 * rp.total_size = r.raw_address_offset then
    [⟨.single ((rp.raw_address_offset + rp.total_size) >>> e), dash, dash, true⟩]
  else if rp.raw_address_offset + rp.total_size < r.raw_address_offset then
    [⟨.range ((rp.raw_address_offset + rp.total_size) >>> e) (end_addr e rp r - 1),
      dash, dash, true⟩]
  else []

/-- exporter.py lines 201-207: the leading reserved row
`format_address(0) through format_address((offset >> e) - 1)` when the first
register's raw offset is nonzero -/
def leadRows (e : Nat) (r : Reg) : List Row :=
  if r.raw_address_offset ≠ 0 then
    [⟨.range 0 ((r.raw_address_offset >>> e) - 1), dash, dash, true⟩]
  else []

/-- exporter.py lines 234-242, non-array case: the normal row of a register
(its Name cell also holds the instance name) -/
def normalRow (e : Nat) (r : Reg) : Row :=
  ⟨.single (r.raw_address_offset >>> e), r.inst_name, r.inst_name, false⟩

/-- the rows for every register after the first, threading the previous
register exactly as the loop's `reg_previous` variable does -/
def restRows (e : Nat) : Reg → List Reg → List Row
  | _, [] => []
  | rp, r :: rs => gapRows e rp r ++ normalRow e r :: restRows e r rs

/-- `PDFExporter.create_regmap_list` (exporter.py lines 196-254) restricted
to its row output: the Offset/Identifier/Name rows streamed to
`create_reg_list_info`, in order -/
def create_regmap_list (e : Nat) : List Reg → List Row
  | [] => []
  | r :: rs => leadRows e r ++ normalRow e r :: restRows e r rs

/-- the first (lowest) address a row's Offset cell shows -/
def rowStart (row : Row) : Nat :=
  match row.offset with
  | .single a => a
  | .range lo _ => lo

/-- the addresses a row's Offset cell covers: the one address of a single
cell, the inclusive interval of a range cell -/
def cellCovers : Cell → Nat → Prop
  | .single x, a => a = x
  | .range lo hi, a => lo ≤ a ∧ a ≤ hi

def rowCovers (row : Row) (a : Nat) : Prop := cellCovers row.offset a

/-- the byte addresses a register occupies -/
def regCovers (g : Reg) (a : Nat) : Prop :=
  g.raw_address_offset ≤ a ∧ a < g.raw_address_offset + g.total_size

/-- two rows are disjoint as far as reserved coverage goes -/
def rowsDisj (r1 r2 : Row) : Prop :=
  r1.reserved = true → r2.reserved = true → ∀ a, rowCovers r1 a → ¬ rowCovers r2 a

/-- the upstream guarantee the reconciler trusts: registers in ascending
offset order, each starting at or after the end of the previous one -/
def ascendingB : List Reg → Bool
  | [] => true
  | [_] => true
  | a :: b :: l =>
      decide (a.raw_address_offset + a.total_size ≤ b.raw_address_offset) &&
        ascendingB (b :: l)

/-- claim C2 as stated, at one concrete map (element granularity `e`,
registers `regs`): given the ascending non-overlap premise, every address
strictly between the end of one register and the start of the next is
covered by a reserved row (no gap address omitted), no address is covered by
both a normal register extent and a reserved row, reserved rows are mutually
disjoint, and rows come in strictly ascending start order. -/
def claimC2At (e : Nat) (regs : List Reg) : Prop :=
  ascendingB regs = true →
    (∀ i rp r, regs.get? i = some rp → regs.get? (i + 1) = some r →
      ∀ a, rp.raw_address_offset + rp.total_size ≤ a → a < r.raw_address_offset →
        ∃ row, row ∈ create_regmap_list e regs ∧ row.reserved = true ∧ rowCovers row a)
    ∧ (∀ row ∈ create_regmap_list e regs, row.reserved = true →
        ∀ a, rowCovers row a → ∀ g ∈ regs, ¬ regCovers g a)
    ∧ List.Pairwise rowsDisj (create_regmap_list e regs)
    ∧ List.Chain' (· < ·) ((create_regmap_list e regs).map rowStart)

/-- claim C3 as stated, at one concrete pair of consecutive registers: in the
range branch the emitted row is a range from the previous register's end
whose inclusive end `Y` is the last address before the current register's
start that is a multiple of the current register's size boundary. -/
def claimC3At (e : Nat) (rp r : Reg) : Prop :=
  rp.raw_address_offset + rp.total_size < r.raw_address_offset →
  rp.raw_address_offset + 2 * rp.total_size ≠ r.raw_address_offset →
  ∃ Y, gapRows e rp r =
      [⟨.range ((rp.raw_address_offset + rp.total_size) >>> e) Y, dash, dash, true⟩]
    ∧ (r.total_size <<< e) ∣ Y
    ∧ Y < r.raw_address_offset >>> e
    ∧ ∀ z, (r.total_size <<< e) ∣ z → z < r.raw_address_offset >>> e → z ≤ Y

/-- claim C5 as stated, at one concrete call: `format_number(v, w)` renders
exactly `⌈w/4⌉` hex nibbles, zero-padded to that count, grouped by four with
underscores, uppercase, prefixed `"<w>'h"`. -/
def claimC5At (address_width v w : Nat) : Prop :=
  format_number address_width v (.str (decDigits w)) =
    .ok (decDigits w ++ apos :: 'h' ::
      (group4 (padLeft ((w + 3) / 4) (hexDigitsBE v))).map Char.toUpper)

/-! ## Walker output discipline (`PDFExporter.generate_output_pdf`,
exporter.py lines 152-168)

Per root of `root_list`, the loop processes every addrmap of that root in
post-order (`create_regmap_list` then `create_regmap_registers_info`) and
then calls `self.pdf_create.build_document()` — inside the per-root loop.
Addrmaps are modelled by opaque identifiers; the model records the ordered
trace of backend calls. -/

inductive PdfEvent
  | regmapList (m : Nat)
  | registersInfo (m : Nat)
  | buildDocument
deriving DecidableEq

/-- the backend calls one root's addrmap traversal makes -/
def mapEvents (maps : List Nat) : List PdfEvent :=
  maps.flatMap fun m => [.regmapList m, .registersInfo m]

/-- `PDFExporter.generate_output_pdf` (exporter.py lines 152-168) as its
trace of backend calls: each root's maps, then one `build_document`, root by
root -/
def generate_output_pdf (roots : List (List Nat)) : List PdfEvent :=
  roots.flatMap fun maps => mapEvents maps ++ [.buildDocument]

/-- how many times `build_document` was called -/
def buildCount : List PdfEvent → Nat
  | [] => 0
  | .buildDocument :: l => buildCount l + 1
  | _ :: l => buildCount l

/-! ## Model-property lookups (`get_reg_reset`, `get_address_width`,
`set_base_address`, `get_reg_access`)

The register model is external (the systemrdl elaborator).  Modelled from
the spec: spec section 6 specifies its interface as property lookup by name
with an optional default plus an existence check, and spec sections 4.4 and
7 make a lookup of a missing required property (no default supplied) a fatal
error.  A node's property store is a partial map from names; `get_property`
with a default is `Option.getD`, `get_property` without one fails on an
absent property. -/

structure FieldM where
  lsb : Nat
  reset : Option Nat
deriving DecidableEq

structure RegM where
  fields : List FieldM
  regwidth : Option Nat
deriving DecidableEq

/-- the error of a required-property lookup (`get_property('regwidth')`
with no default) on a node whose model omits the property -/
def missingRegwidthMsg : List Char :=
  "fatal: required property regwidth is not defined".toList

/-- exporter.py lines 506-513: OR together every field's reset value
(default 0) shifted to its lsb position -/
def reg_reset_value (fields : List FieldM) : Nat :=
  fields.foldl (fun acc f => acc ||| (f.reset.getD 0) <<< f.lsb) 0

/-- `PDFExporter.get_reg_reset` (exporter.py lines 500-518): combine the
field resets, look up `regwidth` with no default, and format — the formatted
call passes the integer width as `bits`. -/
def get_reg_reset (address_width : Nat) (node : RegM) :
    Except (List Char) (List Char) :=
  match node.regwidth with
  | none => .error missingRegwidthMsg
  | some w => format_number address_width (reg_reset_value node.fields) (.int w)

/-- `PDFExporter.check_udp` (exporter.py lines 527-537) over the modelled
property store: is the user-defined property present -/
def check_udp (props : String → Option Nat) (name : String) : Bool :=
  (props name).isSome

/-- `PDFExporter.get_address_width` (exporter.py lines 539-558): default 32
when the `address_width_p` user property is absent, else the property value
(itself looked up with default 32) -/
def get_address_width (props : String → Option Nat) : Nat :=
  if ¬ check_udp props "address_width_p" then 32
  else (props "address_width_p").getD 32

/-- `PDFExporter.set_base_address` (exporter.py lines 87-90): the base
address is `get_property("base_address_p", default=0x0)` -/
def set_base_address (props : String → Option Nat) : Nat :=
  (props "base_address_p").getD 0

/-- `PDFExporter.get_reg_access` (exporter.py lines 481-498): default "RW"
when the `regaccess_p` user property is absent, else the property value
(itself looked up with default "RW") -/
def get_reg_access (props : String → Option String) : String :=
  if ¬ (props "regaccess_p").isSome then "RW"
  else (props "regaccess_p").getD "RW"

/-- the register of claim C7: field A at bits [3:0] with reset 0x5, field B
at bits [7:4] with reset 0xA, register width 8 -/
def exampleReg : RegM := ⟨[⟨0, some 5⟩, ⟨4, some 10⟩], some 8⟩

/-! ## Description cleanup (`PDFExporter.get_desc`, exporter.py lines 310-313)

`s = node.get_property("desc", default="").replace("\n", " ")` then
`s = s.replace("  ", " ")`.  Python `str.replace` substitutes non-overlapping
occurrences left to right in a single pass; the two calls are modelled by the
two structural passes below. -/

/-- Python `s.replace("\n", " ")` -/
def replaceNewlines : List Char → List Char
  | [] => []
  | c :: rest => (if c = '\n' then ' ' else c) :: replaceNewlines rest

/-- Python `s.replace("  ", " ")`: one left-to-right pass replacing
non-overlapping double spaces by single spaces -/
def collapseDoubleSpace : List Char → List Char
  | [] => []
  | [c] => [c]
  | c1 :: c2 :: rest =>
      if c1 = ' ' ∧ c2 = ' ' then ' ' :: collapseDoubleSpace rest
      else c1 :: collapseDoubleSpace (c2 :: rest)

/-- `PDFExporter.get_desc` (exporter.py lines 310-313); `none` models a node
whose model has no `desc` property, so that `get_property` returns the
default `""` -/
def get_desc (desc : Option (List Char)) : List Char :=
  collapseDoubleSpace (replaceNewlines (desc.getD []))



/-! ## Helper lemmas: digits and grouping -/

/-- validation of the Python format model against CPython outputs
(`'{:010_x}'.format(0xa5) == '0_0000_00a5'` and friends) -/
theorem pyGroupedHex_validation :
    pyGroupedHex 10 0xa5 = "0_0000_00a5".toList
    ∧ pyGroupedHex 10 0x1234abcd = "0_1234_abcd".toList
    ∧ pyGroupedHex 3 0xa5 = "0a5".toList
    ∧ pyGroupedHex 4 0xa5 = "00a5".toList
    ∧ pyGroupedHex 5 0xa5 = "0_00a5".toList
    ∧ pyGroupedHex 3 0x1234abcd = "1234_abcd".toList
    ∧ total_width 32 = 10 := by decide

theorem toHexLE_eq_digits : ∀ fuel v : Nat, v ≤ fuel → toHexLE fuel v = Nat.digits 16 v := by
  intro fuel
  induction fuel with
  | zero =>
      intro v hv
      have : v = 0 := Nat.le_zero.mp hv
      simp [toHexLE, this]
  | succ n ih =>
      intro v hv
      by_cases h0 : v = 0
      · simp [toHexLE, h0]
      · rw [toHexLE, if_neg h0,
          Nat.digits_def' (by norm_num : (1:ℕ) < 16) (Nat.pos_of_ne_zero h0)]
        have hlt : v / 16 < v := Nat.div_lt_self (Nat.pos_of_ne_zero h0) (by norm_num)
        rw [ih (v / 16) (by omega)]

theorem hexDigitsBE_eq (v : Nat) :
    hexDigitsBE v = if v = 0 then ['0'] else ((Nat.digits 16 v).map hexChar).reverse := by
  rw [hexDigitsBE, toHexLE_eq_digits v v le_rfl]

theorem mem_hexDigitsBE {v : Nat} {c : Char} (hc : c ∈ hexDigitsBE v) :
    ∃ d, d < 16 ∧ c = hexChar d := by
  rw [hexDigitsBE_eq] at hc
  by_cases h0 : v = 0
  · rw [if_pos h0] at hc
    simp only [List.mem_singleton] at hc
    exact ⟨0, by norm_num, by rw [hc]; decide⟩
  · rw [if_neg h0] at hc
    rw [List.mem_reverse] at hc
    obtain ⟨d, hd, rfl⟩ := List.mem_map.mp hc
    exact ⟨d, Nat.digits_lt_base (by norm_num) hd, rfl⟩

theorem hexChar_facts : ∀ d : Nat, d < 16 →
    hexChar d ≠ '_' ∧ Char.toUpper (hexChar d) ≠ '_' ∧
    hexVal (Char.toUpper (hexChar d)) = d ∧
    ((Char.toUpper (hexChar d)).isDigit = true ∨ (Char.toUpper (hexChar d)).isUpper = true) := by
  decide

theorem chunks4_flatten : ∀ l : List Char, (chunks4 l).flatten = l
  | [] => by simp [chunks4]
  | [a] => by simp [chunks4]
  | [a, b] => by simp [chunks4]
  | [a, b, c] => by simp [chunks4]
  | a :: b :: c :: d :: l => by
      simp [chunks4, chunks4_flatten l]

theorem stripU_append (l1 l2 : List Char) :
    stripUnderscores (l1 ++ l2) = stripUnderscores l1 ++ stripUnderscores l2 := by
  simp [stripUnderscores, List.filter_append]

theorem stripU_eq_self {l : List Char} (h : ∀ x ∈ l, x ≠ '_') :
    stripUnderscores l = l := by
  rw [stripUnderscores, List.filter_eq_self]
  intro a ha
  simpa using h a ha

theorem stripU_underscore_cons (l : List Char) :
    stripUnderscores ('_' :: l) = stripUnderscores l := by
  simp [stripUnderscores, List.filter_cons]

theorem stripU_joinU : ∀ cs : List (List Char),
    (∀ x ∈ cs.flatten, x ≠ '_') → stripUnderscores (joinU cs) = cs.flatten
  | [], _ => rfl
  | [c], h => by
      simp only [joinU, List.flatten_cons, List.flatten_nil, List.append_nil]
      exact stripU_eq_self fun a ha => h a (by simp [ha])
  | c :: c2 :: cs, h => by
      have hrec := stripU_joinU (c2 :: cs) (by
        intro x hx
        exact h x (by
          simp only [List.flatten_cons] at hx ⊢
          exact List.mem_append_right _ hx))
      have h1 : stripUnderscores c = c :=
        stripU_eq_self fun a ha => h a (by simp [List.flatten_cons, ha])
      simp only [joinU, List.flatten_cons]
      rw [stripU_append, h1, stripU_underscore_cons, hrec]
      simp [List.flatten_cons]

theorem stripU_reverse (l : List Char) :
    stripUnderscores l.reverse = (stripUnderscores l).reverse := by
  simp [stripUnderscores, List.filter_reverse]

theorem stripU_group4 {l : List Char} (h : ∀ x ∈ l, x ≠ '_') :
    stripUnderscores (group4 l) = l := by
  rw [group4, stripU_reverse, stripU_joinU (chunks4 l.reverse)
      (by rw [chunks4_flatten]; intro x hx; exact h x (List.mem_reverse.mp hx)),
    chunks4_flatten, List.reverse_reverse]

theorem chunks4_map (f : Char → Char) : ∀ l : List Char,
    chunks4 (l.map f) = (chunks4 l).map (List.map f)
  | [] => by simp [chunks4]
  | [a] => by simp [chunks4]
  | [a, b] => by simp [chunks4]
  | [a, b, c] => by simp [chunks4]
  | a :: b :: c :: d :: l => by
      simp [chunks4, chunks4_map f l]

theorem joinU_map (f : Char → Char) (hf : f '_' = '_') : ∀ cs : List (List Char),
    (joinU cs).map f = joinU (cs.map (List.map f))
  | [] => rfl
  | [c] => rfl
  | c :: c2 :: cs => by
      simp only [joinU, List.map_append, List.map_cons, hf]
      rw [joinU_map f hf (c2 :: cs)]
      rfl

theorem group4_map (f : Char → Char) (hf : f '_' = '_') (l : List Char) :
    (group4 l).map f = group4 (l.map f) := by
  rw [group4, group4, List.map_reverse, joinU_map f hf, ← chunks4_map,
    List.map_reverse]

theorem padLeft_map_zero (f : Char → Char) (hf : f '0' = '0') (d : Nat) (l : List Char) :
    (padLeft d l).map f = padLeft d (l.map f) := by
  simp [padLeft, List.map_append, List.map_replicate, hf]

theorem padLeft_length {d : Nat} {l : List Char} (h : l.length ≤ d) :
    (padLeft d l).length = d := by
  simp [padLeft]
  omega

theorem parseHex_padLeft (d : Nat) (l : List Char) :
    parseHex (padLeft d l) = parseHex l := by
  rw [padLeft, parseHex, parseHex, List.foldl_append]
  have : ∀ k : Nat, List.foldl (fun a c => 16 * a + hexVal c) 0 (List.replicate k '0') = 0 := by
    intro k
    induction k with
    | zero => rfl
    | succ n ih => simpa [List.replicate_succ, List.foldl_cons, hexVal] using ih
  rw [this]

theorem parseHex_rev_digits : ∀ L : List Nat, (∀ d ∈ L, d < 16) →
    parseHex ((L.map fun d => Char.toUpper (hexChar d)).reverse) = Nat.ofDigits 16 L
  | [], _ => by simp [parseHex, Nat.ofDigits_nil]
  | d :: L, h => by
      have hd : d < 16 := h d (by simp)
      have hponens := parseHex_rev_digits L fun x hx => h x (by simp [hx])
      rw [List.map_cons, List.reverse_cons, parseHex, List.foldl_append]
      rw [parseHex] at hponens
      rw [hponens, Nat.ofDigits_cons]
      simp only [List.foldl_cons, List.foldl_nil]
      rw [(hexChar_facts d hd).2.2.1]
      omega

theorem parseHex_upperHex (v : Nat) :
    parseHex ((hexDigitsBE v).map Char.toUpper) = v := by
  rw [hexDigitsBE_eq]
  by_cases h0 : v = 0
  · simp only [if_pos h0, h0]
    decide
  · rw [if_neg h0, List.map_reverse, List.map_map]
    have := parseHex_rev_digits (Nat.digits 16 v)
      (fun d hd => Nat.digits_lt_base (by norm_num) hd)
    simpa [Function.comp] using this.trans (Nat.ofDigits_digits 16 v)

theorem stripU_hexPart (W v : Nat) :
    stripUnderscores ((pyGroupedHex W v).map Char.toUpper)
      = padLeft (pyPadWidth W (hexDigitsBE v).length) ((hexDigitsBE v).map Char.toUpper) := by
  rw [pyGroupedHex, group4_map Char.toUpper (by decide),
    padLeft_map_zero Char.toUpper (by decide)]
  apply stripU_group4
  intro x hx
  rw [padLeft] at hx
  rcases List.mem_append.mp hx with h | h
  · rw [List.eq_of_mem_replicate h]; decide
  · obtain ⟨c, hc, rfl⟩ := List.mem_map.mp h
    obtain ⟨d, hd, rfl⟩ := mem_hexDigitsBE hc
    exact (hexChar_facts d hd).2.1

/-! ## Helper lemmas: walker trace -/

theorem buildCount_append (l1 l2 : List PdfEvent) :
    buildCount (l1 ++ l2) = buildCount l1 + buildCount l2 := by
  induction l1 with
  | nil => simp [buildCount]
  | cons e l ih =>
      cases e with
      | regmapList m => simp [buildCount, ih]
      | registersInfo m => simp [buildCount, ih]
      | buildDocument =>
          have h1 : buildCount (PdfEvent.buildDocument :: (l ++ l2))
              = buildCount (l ++ l2) + 1 := rfl
          have h2 : buildCount (PdfEvent.buildDocument :: l) = buildCount l + 1 := rfl
          rw [List.cons_append, h1, h2, ih]
          omega

theorem buildCount_mapEvents (maps : List Nat) : buildCount (mapEvents maps) = 0 := by
  induction maps with
  | nil => rfl
  | cons m ms ih =>
      show buildCount ([PdfEvent.regmapList m, PdfEvent.registersInfo m] ++ mapEvents ms) = 0
      rw [buildCount_append, ih]
      rfl

/-! ## Helper lemmas: description cleanup -/

theorem newline_notin_replaceNewlines : ∀ l : List Char, '\n' ∉ replaceNewlines l
  | [] => by simp [replaceNewlines]
  | c :: rest => by
      simp only [replaceNewlines, List.mem_cons, not_or]
      refine ⟨?_, newline_notin_replaceNewlines rest⟩
      by_cases h : c = '\n'
      · simp [h]
      · simp only [if_neg h]
        exact Ne.symm h

theorem mem_collapseDoubleSpace : ∀ l : List Char, ∀ c ∈ collapseDoubleSpace l, c = ' ' ∨ c ∈ l
  | [], c, hc => by simp [collapseDoubleSpace] at hc
  | [a], c, hc => by
      simp only [collapseDoubleSpace, List.mem_singleton] at hc
      simp [hc]
  | c1 :: c2 :: rest, c, hc => by
      rw [collapseDoubleSpace] at hc
      by_cases h : c1 = ' ' ∧ c2 = ' '
      · rw [if_pos h] at hc
        rcases List.mem_cons.mp hc with h1 | h1
        · exact Or.inl h1
        · rcases mem_collapseDoubleSpace rest c h1 with h2 | h2
          · exact Or.inl h2
          · exact Or.inr (by simp [h2])
      · rw [if_neg h] at hc
        rcases List.mem_cons.mp hc with h1 | h1
        · exact Or.inr (by simp [h1])
        · rcases mem_collapseDoubleSpace (c2 :: rest) c h1 with h2 | h2
          · exact Or.inl h2
          · exact Or.inr (by simp [List.mem_cons.mp h2])

/-! ## Helper lemmas: gap-end trimming arithmetic -/

theorem trim_spec (p q m : Nat) (_hm : 0 < m) (hpq : p ≤ q) :
    m ∣ ((p + ((q - p) - (q - p) % m)) - p)
    ∧ p + ((q - p) - (q - p) % m) ≤ q
    ∧ ∀ z, p ≤ z → z ≤ q → m ∣ (z - p) →
        z ≤ p + ((q - p) - (q - p) % m) := by
  have hmod : (q - p) % m ≤ q - p := Nat.mod_le _ _
  have hdm : m * ((q - p) / m) + (q - p) % m = q - p := Nat.div_add_mod _ _
  refine ⟨⟨(q - p) / m, by omega⟩, by omega, ?_⟩
  intro z hz1 hz2 hdvd
  have key : (z - p) ≤ (q - p) - (q - p) % m := by
    have h1 : (z - p) / m * m = z - p := Nat.div_mul_cancel hdvd
    have h2 : (z - p) / m ≤ (q - p) / m := Nat.div_le_div_right (by omega)
    have h3 : (z - p) / m * m ≤ (q - p) / m * m := Nat.mul_le_mul_right m h2
    have h5 : (q - p) / m * m = m * ((q - p) / m) := Nat.mul_comm _ _
    omega
  omega

theorem shiftRight_mono {a b : Nat} (e : Nat) (h : a ≤ b) : a >>> e ≤ b >>> e := by
  rw [Nat.shiftRight_eq_div_pow, Nat.shiftRight_eq_div_pow]
  exact Nat.div_le_div_right h

theorem shiftLeft_pos {a : Nat} (e : Nat) (h : 0 < a) : 0 < a <<< e := by
  rw [Nat.shiftLeft_eq]
  exact Nat.mul_pos h (Nat.pos_pow_of_pos e (by norm_num))

/-! ## Helper lemmas: the reconciler at byte addressing -/

theorem ascendingB_cons_cons {a b : Reg} {l : List Reg}
    (h : ascendingB (a :: b :: l) = true) :
    a.raw_address_offset + a.total_size ≤ b.raw_address_offset
    ∧ ascendingB (b :: l) = true := by
  rw [ascendingB] at h
  simpa using h

theorem ascendingB_le_of_mem {a : Reg} {l : List Reg}
    (h : ascendingB (a :: l) = true) :
    ∀ g ∈ l, a.raw_address_offset + a.total_size ≤ g.raw_address_offset := by
  induction l generalizing a with
  | nil => simp
  | cons b l ih =>
      obtain ⟨hab, hbl⟩ := ascendingB_cons_cons h
      intro g hg
      rcases List.mem_cons.mp hg with rfl | hg
      · exact hab
      · have := ih hbl g hg
        omega

theorem rowsDisj_left {r1 r2 : Row} (h : r1.reserved = false) : rowsDisj r1 r2 := by
  intro h1
  rw [h] at h1
  exact absurd h1 (by simp)

theorem rowsDisj_right {r1 r2 : Row} (h : r2.reserved = false) : rowsDisj r1 r2 := by
  intro _ h2
  rw [h] at h2
  exact absurd h2 (by simp)

theorem normalRow_start (e : Nat) (r : Reg) :
    rowStart (normalRow e r) = r.raw_address_offset >>> e := rfl

theorem normalRow_not_reserved (e : Nat) (r : Reg) :
    (normalRow e r).reserved = false := rfl

theorem gapRows_zero_spec {rp r : Reg} (hp : 0 < rp.total_size) :
    gapRows 0 rp r = [] ∨
    (∃ row, gapRows 0 rp r = [row] ∧ row.reserved = true ∧
      rowStart row = rp.raw_address_offset + rp.total_size ∧
      rp.raw_address_offset + rp.total_size < r.raw_address_offset ∧
      ∀ a, rowCovers row a →
        rp.raw_address_offset + rp.total_size ≤ a ∧ a < r.raw_address_offset) := by
  by_cases hs : rp.raw_address_offset + 2 * rp.total_size = r.raw_address_offset
  · right
    refine ⟨⟨Cell.single ((rp.raw_address_offset + rp.total_size) >>> 0), dash, dash, true⟩,
      by rw [gapRows, if_pos hs], rfl, by simp [rowStart], by omega, ?_⟩
    intro a hcov
    rw [rowCovers, cellCovers] at hcov
    rw [hcov, Nat.shiftRight_zero]
    omega
  · by_cases hlt : rp.raw_address_offset + rp.total_size < r.raw_address_offset
    · right
      refine ⟨⟨Cell.range ((rp.raw_address_offset + rp.total_size) >>> 0)
          (end_addr 0 rp r - 1), dash, dash, true⟩,
        by rw [gapRows, if_neg hs, if_pos hlt], rfl, by simp [rowStart], hlt, ?_⟩
      intro a hcov
      rw [rowCovers, cellCovers, Nat.shiftRight_zero] at hcov
      have hend : rp.raw_address_offset + rp.total_size ≤ end_addr 0 rp r
          ∧ end_addr 0 rp r ≤ r.raw_address_offset := by
        have hmod : (r.raw_address_offset - (rp.raw_address_offset + rp.total_size)) %
            (r.total_size <<< 0) ≤
            (r.raw_address_offset - (rp.raw_address_offset + rp.total_size)) :=
          Nat.mod_le _ _
        rw [end_addr]
        simp only [Nat.shiftRight_zero]
        omega
      omega
    · left
      rw [gapRows, if_neg hs, if_neg hlt]

theorem restRows_inv : ∀ (rs : List Reg) (prev : Reg),
    0 < prev.total_size →
    (∀ g ∈ rs, 0 < g.total_size) →
    ascendingB (prev :: rs) = true →
    (List.Chain' (· < ·)
      (prev.raw_address_offset :: (restRows 0 prev rs).map rowStart))
    ∧ (∀ row ∈ restRows 0 prev rs, row.reserved = true →
        ∀ a : Nat, rowCovers row a →
          prev.raw_address_offset + prev.total_size ≤ a
          ∧ ∀ g ∈ prev :: rs, ¬ regCovers g a)
    ∧ List.Pairwise rowsDisj (restRows 0 prev rs)
  | [], prev, _, _, _ => by
      simp [restRows]
  | r :: rs, prev, hp, hpos, hasc => by
      obtain ⟨hpr, hrs⟩ := ascendingB_cons_cons hasc
      have hr : 0 < r.total_size := hpos r (by simp)
      have hposr : ∀ g ∈ rs, 0 < g.total_size := fun g hg => hpos g (by simp [hg])
      obtain ⟨ih1, ih2, ih3⟩ := restRows_inv rs r hr hposr hrs
      have hafter := ascendingB_le_of_mem hrs
      have hrest : ∀ row ∈ restRows 0 r rs, row.reserved = true →
          ∀ a : Nat, rowCovers row a →
            prev.raw_address_offset + prev.total_size ≤ a
            ∧ ∀ g ∈ prev :: r :: rs, ¬ regCovers g a := by
        intro row hrow hres a hcov
        obtain ⟨ha, hg⟩ := ih2 row hrow hres a hcov
        refine ⟨by omega, ?_⟩
        intro g hgmem
        rcases List.mem_cons.mp hgmem with rfl | hgmem
        · rw [regCovers]
          omega
        · exact hg g hgmem
      rw [restRows]
      rcases gapRows_zero_spec (r := r) hp with hnone |
        ⟨grow, hgr, hgres, hgstart, hglt, hgcov⟩
      · rw [hnone, List.nil_append]
        refine ⟨?_, ?_, ?_⟩
        · rw [List.map_cons, normalRow_start, Nat.shiftRight_zero]
          exact List.chain'_cons.mpr ⟨by omega, ih1⟩
        · intro row hrow hres a hcov
          rcases List.mem_cons.mp hrow with rfl | hrow
          · rw [normalRow_not_reserved] at hres
            exact absurd hres (by simp)
          · exact hrest row hrow hres a hcov
        · exact List.pairwise_cons.mpr
            ⟨fun row _ => rowsDisj_left (normalRow_not_reserved 0 r), ih3⟩
      · rw [hgr, List.singleton_append]
        refine ⟨?_, ?_, ?_⟩
        · rw [List.map_cons, List.map_cons, hgstart, normalRow_start, Nat.shiftRight_zero]
          exact List.chain'_cons.mpr ⟨by omega, List.chain'_cons.mpr ⟨hglt, ih1⟩⟩
        · intro row hrow hres a hcov
          rcases List.mem_cons.mp hrow with rfl | hrow
          · obtain ⟨ha1, ha2⟩ := hgcov a hcov
            refine ⟨ha1, ?_⟩
            intro g hgmem
            rcases List.mem_cons.mp hgmem with rfl | hgmem
            · rw [regCovers]
              omega
            rcases List.mem_cons.mp hgmem with rfl | hgmem
            · rw [regCovers]
              omega
            · have := hafter g hgmem
              rw [regCovers]
              omega
          rcases List.mem_cons.mp hrow with rfl | hrow
          · rw [normalRow_not_reserved] at hres
            exact absurd hres (by simp)
          · exact hrest row hrow hres a hcov
        · refine List.pairwise_cons.mpr ⟨?_, List.pairwise_cons.mpr
            ⟨fun row _ => rowsDisj_left (normalRow_not_reserved 0 r), ih3⟩⟩
          intro row hrow
          rcases List.mem_cons.mp hrow with rfl | hrow
          · exact rowsDisj_right (normalRow_not_reserved 0 r)
          · intro _ h2 a hcov1 hcov2
            obtain ⟨-, hlt2⟩ := hgcov a hcov1
            obtain ⟨hge2, -⟩ := ih2 row hrow h2 a hcov2
            omega

/-! ## The claims -/

/-- C1: for every (sw, on-read, on-write) triple the resolver
`get_field_access` returns exactly the mnemonic of the spec section 4.2
decision table evaluated first-match-wins, including the documented per-mode
defaults for unlisted combinations, and (being a total function) never
raises. -/
theorem c1_access_table :
    ∀ (sw : AccessType) (onread : Option OnReadType) (onwrite : Option OnWriteType),
      get_field_access sw onread onwrite = resolve_access_spec sw onread onwrite := by
  decide

/-- C4: for every pair of consecutive registers and any element granularity,
the single-address reserved-row branch fires exactly when
`prev_offset + 2*prev_size == offset` (it is checked before the range
branch), and then the one emitted row is the reserved row at
`(prev_offset + prev_size) >> elem_addr_bits` with `"-"` as identifier and
name. -/
theorem c4_single_slot (e : Nat) (rp r : Reg) :
    gapRows e rp r =
        [⟨Cell.single ((rp.raw_address_offset + rp.total_size) >>> e), dash, dash, true⟩]
      ↔ rp.raw_address_offset + 2 * rp.total_size = r.raw_address_offset := by
  constructor
  · intro h
    by_contra hne
    rw [gapRows, if_neg hne] at h
    by_cases hlt : rp.raw_address_offset + rp.total_size < r.raw_address_offset
    · rw [if_pos hlt] at h
      simp at h
    · rw [if_neg hlt] at h
      exact List.noConfusion h
  · intro h
    rw [gapRows, if_pos h]

/-- C2, counterexample: registers (offset 0, size 4) and (offset 16, size 8),
byte addressing, supplied in ascending non-overlapping order.  The rows are
register@0, reserved 4 through 11, register@16: gap address 12 lies strictly
between the registers but no row covers it, so the no-omission part of the
claim fails (the range row's end was trimmed by the current register's size
modulus). -/
theorem c2_counterexample : ¬ claimC2At 0 [⟨0, 4, []⟩, ⟨16, 8, []⟩] := by
  intro h
  obtain ⟨hcover, -, -, -⟩ := h (by decide)
  obtain ⟨row, hmem, hres, hcov⟩ :=
    hcover 0 ⟨0, 4, []⟩ ⟨16, 8, []⟩ rfl rfl 12 (by decide) (by decide)
  have hlist : create_regmap_list 0 [⟨0, 4, []⟩, ⟨16, 8, []⟩] =
      [⟨Cell.single 0, [], [], false⟩, ⟨Cell.range 4 11, dash, dash, true⟩,
       ⟨Cell.single 16, [], [], false⟩] := by decide
  rw [hlist] at hmem
  rcases List.mem_cons.mp hmem with rfl | hmem
  · exact absurd hres (by decide)
  rcases List.mem_cons.mp hmem with rfl | hmem
  · simp [rowCovers, cellCovers] at hcov
  rcases List.mem_cons.mp hmem with rfl | hmem
  · exact absurd hres (by decide)
  · exact absurd hmem (List.not_mem_nil _)

/-- C2, amended: for byte-addressed maps (element granularity 0) whose
registers have positive sizes and come in ascending non-overlapping order,
the reconciler's rows are emitted in strictly ascending start-offset order,
every reserved row covers only addresses outside every register's extent,
and reserved rows are pairwise disjoint — but gap coverage can be partial:
a range row's end is trimmed by the current register's size modulus and a
single-slot row stands for one address, so gap addresses may be omitted. -/
theorem c2_amended (regs : List Reg)
    (hpos : ∀ g ∈ regs, 0 < g.total_size)
    (hasc : ascendingB regs = true) :
    List.Chain' (· < ·) ((create_regmap_list 0 regs).map rowStart)
    ∧ (∀ row ∈ create_regmap_list 0 regs, row.reserved = true →
        ∀ a : Nat, rowCovers row a → ∀ g ∈ regs, ¬ regCovers g a)
    ∧ List.Pairwise rowsDisj (create_regmap_list 0 regs) := by
  cases regs with
  | nil => simp [create_regmap_list]
  | cons r rs =>
      have hr : 0 < r.total_size := hpos r (by simp)
      obtain ⟨m1, m2, m3⟩ :=
        restRows_inv rs r hr (fun g hg => hpos g (by simp [hg])) hasc
      have hafter := ascendingB_le_of_mem hasc
      have hrest : ∀ row ∈ restRows 0 r rs, row.reserved = true →
          ∀ a : Nat, rowCovers row a → ∀ g ∈ r :: rs, ¬ regCovers g a :=
        fun row hrow hres a hcov => (m2 row hrow hres a hcov).2
      have hrest_lb : ∀ row ∈ restRows 0 r rs, row.reserved = true →
          ∀ a : Nat, rowCovers row a → r.raw_address_offset + r.total_size ≤ a :=
        fun row hrow hres a hcov => (m2 row hrow hres a hcov).1
      rw [create_regmap_list]
      by_cases h0 : r.raw_address_offset = 0
      · rw [leadRows, if_neg (by simp [h0]), List.nil_append]
        refine ⟨?_, ?_, ?_⟩
        · rw [List.map_cons, normalRow_start, Nat.shiftRight_zero]
          exact m1
        · intro row hrow hres a hcov
          rcases List.mem_cons.mp hrow with rfl | hrow
          · rw [normalRow_not_reserved] at hres
            exact absurd hres (by simp)
          · exact hrest row hrow hres a hcov
        · exact List.pairwise_cons.mpr
            ⟨fun row _ => rowsDisj_left (normalRow_not_reserved 0 r), m3⟩
      · rw [leadRows, if_pos h0, List.singleton_append]
        have hleadcov : ∀ a : Nat,
            rowCovers ⟨Cell.range 0 ((r.raw_address_offset >>> 0) - 1), dash, dash, true⟩ a →
            a < r.raw_address_offset := by
          intro a hcov
          rw [rowCovers, cellCovers, Nat.shiftRight_zero] at hcov
          omega
        refine ⟨?_, ?_, ?_⟩
        · rw [List.map_cons, List.map_cons, normalRow_start, Nat.shiftRight_zero]
          refine List.chain'_cons.mpr ⟨?_, m1⟩
          show (0 : Nat) < r.raw_address_offset
          omega
        · intro row hrow hres a hcov
          rcases List.mem_cons.mp hrow with rfl | hrow
          · have hlt := hleadcov a hcov
            intro g hgmem
            rcases List.mem_cons.mp hgmem with rfl | hgmem
            · rw [regCovers]
              omega
            · have := hafter g hgmem
              rw [regCovers]
              omega
          rcases List.mem_cons.mp hrow with rfl | hrow
          · rw [normalRow_not_reserved] at hres
            exact absurd hres (by simp)
          · exact hrest row hrow hres a hcov
        · refine List.pairwise_cons.mpr ⟨?_, List.pairwise_cons.mpr
            ⟨fun row _ => rowsDisj_left (normalRow_not_reserved 0 r), m3⟩⟩
          intro row hrow
          rcases List.mem_cons.mp hrow with rfl | hrow
          · exact rowsDisj_right (normalRow_not_reserved 0 r)
          · intro _ h2 a hcov1 hcov2
            have hlt1 := hleadcov a hcov1
            have hge2 := hrest_lb row hrow h2 a hcov2
            omega

/-- C2, witness: the amended statement at the spec section 8 example map —
registers (offset 0, size 4) and (offset 8, size 4), byte addressing, whose
rows are register@0, reserved single-slot@4, register@8. -/
theorem c2_amended_witness :
    List.Chain' (· < ·)
      ((create_regmap_list 0 [⟨0, 4, []⟩, ⟨8, 4, []⟩]).map rowStart)
    ∧ (∀ row ∈ create_regmap_list 0 [⟨0, 4, []⟩, ⟨8, 4, []⟩], row.reserved = true →
        ∀ a : Nat, rowCovers row a →
          ∀ g ∈ ([⟨0, 4, []⟩, ⟨8, 4, []⟩] : List Reg), ¬ regCovers g a)
    ∧ List.Pairwise rowsDisj (create_regmap_list 0 [⟨0, 4, []⟩, ⟨8, 4, []⟩]) :=
  c2_amended [⟨0, 4, []⟩, ⟨8, 4, []⟩] (by decide) (by decide)

/-- C3, counterexample: take the previous register at offset 0 with size 4
and the current register at offset 16 with size 8, byte addressing.  The
range branch emits the row `4 through 11`, and 11 is not a multiple of the
current register's size boundary 8 (the last such multiple before 16 is 8):
the claimed characterization of the range end is false. -/
theorem c3_counterexample : ¬ claimC3At 0 ⟨0, 4, []⟩ ⟨16, 8, []⟩ := by
  intro h
  obtain ⟨Y, heq, hdvd, hlt, _⟩ := h (by decide) (by decide)
  have hg : gapRows 0 ⟨0, 4, []⟩ ⟨16, 8, []⟩ = [⟨Cell.range 4 11, dash, dash, true⟩] := by
    decide
  rw [hg] at heq
  have hdvd8 : (8 : ℕ) ∣ Y := by simpa using hdvd
  simp at heq
  omega

/-- C3, amended: in the range branch (gap present, single-slot pattern not
matched, current size positive) exactly one reserved row is emitted, its
range starting at the previous register's end in element units; its
exclusive end `end_addr` is not in general a multiple of the current
register's size boundary, but the largest address of the form
`prev_end + k * (cur_size << elem_addr_bits)` that does not exceed the
current register's start (all in element units). -/
theorem c3_amended (e : Nat) (rp r : Reg)
    (hgap : rp.raw_address_offset + rp.total_size < r.raw_address_offset)
    (hne : rp.raw_address_offset + 2 * rp.total_size ≠ r.raw_address_offset)
    (hsz : 0 < r.total_size) :
    gapRows e rp r =
      [⟨Cell.range ((rp.raw_address_offset + rp.total_size) >>> e) (end_addr e rp r - 1),
        dash, dash, true⟩]
    ∧ (r.total_size <<< e) ∣
        (end_addr e rp r - ((rp.raw_address_offset + rp.total_size) >>> e))
    ∧ end_addr e rp r ≤ r.raw_address_offset >>> e
    ∧ ∀ z, (rp.raw_address_offset + rp.total_size) >>> e ≤ z →
        z ≤ r.raw_address_offset >>> e →
        (r.total_size <<< e) ∣ (z - ((rp.raw_address_offset + rp.total_size) >>> e)) →
        z ≤ end_addr e rp r := by
  have hm : 0 < r.total_size <<< e := shiftLeft_pos e hsz
  have hpq : (rp.raw_address_offset + rp.total_size) >>> e ≤ r.raw_address_offset >>> e :=
    shiftRight_mono e (le_of_lt hgap)
  have hts := trim_spec ((rp.raw_address_offset + rp.total_size) >>> e)
    (r.raw_address_offset >>> e) (r.total_size <<< e) hm hpq
  exact ⟨by rw [gapRows, if_neg hne, if_pos hgap], hts.1, hts.2.1, hts.2.2⟩

/-- C3, witness: the amended statement at the counterexample's concrete
registers (byte addressing, previous register (0, size 4), current register
(16, size 8)). -/
theorem c3_amended_witness :
    gapRows 0 ⟨0, 4, []⟩ ⟨16, 8, []⟩ =
      [⟨Cell.range ((0 + 4) >>> 0) (end_addr 0 ⟨0, 4, []⟩ ⟨16, 8, []⟩ - 1),
        dash, dash, true⟩]
    ∧ (8 <<< 0) ∣ (end_addr 0 ⟨0, 4, []⟩ ⟨16, 8, []⟩ - ((0 + 4) >>> 0))
    ∧ end_addr 0 ⟨0, 4, []⟩ ⟨16, 8, []⟩ ≤ 16 >>> 0
    ∧ ∀ z, (0 + 4) >>> 0 ≤ z → z ≤ 16 >>> 0 →
        (8 <<< 0) ∣ (z - ((0 + 4) >>> 0)) →
        z ≤ end_addr 0 ⟨0, 4, []⟩ ⟨16, 8, []⟩ :=
  c3_amended 0 ⟨0, 4, []⟩ ⟨16, 8, []⟩ (by decide) (by decide) (by decide)

/-- C5, counterexample: at the default address width 32, `format_number`
applied to value 0xA5 and width 8 does not render `⌈8/4⌉ = 2` hex nibbles —
the field width comes from the exporter's address-width state, and CPython's
grouped zero-padding widens it further, giving `8'h0_0000_00A5` (nine
nibbles). -/
theorem c5_counterexample : ¬ claimC5At 32 165 8 := by
  unfold claimC5At
  decide

/-- C5, amended: `format_number(v, w)` returns `"<w>'h"` followed by the
underscore-grouped uppercase hex rendering of `v` whose nibble count is
`max n (W - (W-1)/5)` — where `n` is the count of significant hex digits of
`v` and `W = ⌈aw/4⌉ + ⌈⌈aw/4⌉/4⌉` is derived from the exporter's
`address_width` state `aw`, not from the `w` argument (and the `w` of a
working call site is already a string). -/
theorem c5_amended (address_width v w : Nat) :
    format_number address_width v (.str (decDigits w)) =
      .ok (decDigits w ++ apos :: 'h' ::
        (pyGroupedHex (total_width address_width) v).map Char.toUpper)
    ∧ (stripUnderscores ((pyGroupedHex (total_width address_width) v).map Char.toUpper)).length
        = pyPadWidth (total_width address_width) (hexDigitsBE v).length
    ∧ ∀ c ∈ stripUnderscores ((pyGroupedHex (total_width address_width) v).map Char.toUpper),
        c.isDigit = true ∨ c.isUpper = true := by
  refine ⟨rfl, ?_, ?_⟩
  · rw [stripU_hexPart]
    exact padLeft_length (by
      rw [List.length_map]
      exact le_max_left _ _)
  · intro c hc
    rw [stripU_hexPart, padLeft] at hc
    rcases List.mem_append.mp hc with h | h
    · rw [List.eq_of_mem_replicate h]
      left
      decide
    · obtain ⟨x, hx, rfl⟩ := List.mem_map.mp h
      obtain ⟨d, hd, rfl⟩ := mem_hexDigitsBE hx
      exact (hexChar_facts d hd).2.2.2

/-- C6: the width prefix of `format_number(v, w)`'s output is exactly the
decimal rendering of `w` followed by `'h`, and parsing the remaining hex
digits (underscores stripped) back as hexadecimal yields exactly `v`, for
every exporter address width. -/
theorem c6_roundtrip (address_width v w : Nat) :
    format_number address_width v (.str (decDigits w)) =
      .ok (decDigits w ++ apos :: 'h' ::
        (pyGroupedHex (total_width address_width) v).map Char.toUpper)
    ∧ parseHex (stripUnderscores
        ((pyGroupedHex (total_width address_width) v).map Char.toUpper)) = v := by
  refine ⟨rfl, ?_⟩
  rw [stripU_hexPart, parseHex_padLeft, parseHex_upperHex]

/-- C7: the field resets do OR-combine to 0xA5, but `get_reg_reset` on this
register does not return `"8'h00_A5"`: it raises a `TypeError`, because the
integer `regwidth` is concatenated with the string `"'h"` inside
`format_number`. -/
theorem c7_reset_type_error :
    reg_reset_value exampleReg.fields = 165 ∧
    get_reg_reset 32 exampleReg = .error typeErrorMsg := by
  exact ⟨by decide, rfl⟩

/-- C8, counterexample: exporting a list of two roots (one addrmap each)
calls `build_document` twice, not exactly once per export — the call is
inside the per-root loop. -/
theorem c8_counterexample :
    ¬ buildCount (generate_output_pdf [[0], [1]]) = 1 := by decide

/-- C8, amended: `build_document` is invoked exactly once per root of the
supplied list (zero times for an empty list, `n` times for `n` roots), and
for a single-root export it is invoked exactly once, after all of that
root's address maps have been processed. -/
theorem c8_amended :
    (∀ roots : List (List Nat),
        buildCount (generate_output_pdf roots) = roots.length)
    ∧ ∀ maps : List Nat,
        generate_output_pdf [maps] = mapEvents maps ++ [PdfEvent.buildDocument] := by
  constructor
  · intro roots
    induction roots with
    | nil => rfl
    | cons maps rs ih =>
        show buildCount ((mapEvents maps ++ [PdfEvent.buildDocument]) ++
          generate_output_pdf rs) = rs.length + 1
        rw [buildCount_append, buildCount_append, buildCount_mapEvents, ih]
        have h1 : buildCount [PdfEvent.buildDocument] = 1 := rfl
        omega
  · intro maps
    show mapEvents maps ++ [PdfEvent.buildDocument] ++ [] = _
    rw [List.append_nil]

/-- C9: a register whose model omits `regwidth` makes `get_reg_reset` fail
(the lookup has no default), while the width-independent lookups never fail
on an absent property: `get_address_width` defaults to 32, the base address
defaults to 0, and `get_reg_access` defaults to `"RW"`. -/
theorem c9_missing_properties :
    (∀ (address_width : Nat) (node : RegM), node.regwidth = none →
        get_reg_reset address_width node = .error missingRegwidthMsg)
    ∧ (∀ props : String → Option Nat, props "address_width_p" = none →
        get_address_width props = 32)
    ∧ (∀ props : String → Option Nat, props "base_address_p" = none →
        set_base_address props = 0)
    ∧ (∀ props : String → Option String, props "regaccess_p" = none →
        get_reg_access props = "RW") := by
  refine ⟨?_, ?_, ?_, ?_⟩
  · intro aw node h
    rw [get_reg_reset, h]
  · intro props h
    rw [get_address_width, if_pos (by simp [check_udp, h])]
  · intro props h
    rw [set_base_address, h]
    rfl
  · intro props h
    rw [get_reg_access, if_pos (by simp [h])]

/-- C9, witness: the defaults at concrete empty property stores, and the
fatal error on a register with no `regwidth`. -/
theorem c9_missing_properties_witness :
    get_reg_reset 32 ⟨[], none⟩ = .error missingRegwidthMsg
    ∧ get_address_width (fun _ => none) = 32
    ∧ set_base_address (fun _ => none) = 0
    ∧ get_reg_access (fun _ => none) = "RW" :=
  ⟨c9_missing_properties.1 32 ⟨[], none⟩ rfl,
   c9_missing_properties.2.1 (fun _ => none) rfl,
   c9_missing_properties.2.2.1 (fun _ => none) rfl,
   c9_missing_properties.2.2.2 (fun _ => none) rfl⟩

/-- C10: the emitted description equals the `desc` property with every
newline replaced by a space and double spaces collapsed in one left-to-right
pass, the empty string stands in when the property is absent, and no emitted
description ever contains a newline character. -/
theorem c10_desc :
    (∀ d : Option (List Char), '\n' ∉ get_desc d)
    ∧ get_desc none = []
    ∧ ∀ s : List Char,
        get_desc (some s) = collapseDoubleSpace (replaceNewlines s) := by
  refine ⟨?_, rfl, fun s => rfl⟩
  intro d h
  rcases mem_collapseDoubleSpace _ _ h with h1 | h1
  · exact absurd h1 (by decide)
  · exact newline_notin_replaceNewlines _ h1

end PeakRdlPdf
